import Mathlib

/-
Verification of the chess rules-and-search engine (Python sources under
core/ and ai/) against its natural-language specification.  The data model
and the operations under scrutiny are embedded shallowly: pure fragments
become Lean functions, the stateful GameRule and Board objects become
explicit state records with transition functions, Python exceptions become
the error constructor of Except, and the wall-clock readings of the search
loops become a boolean schedule indexed by the count of readings taken.
Where a Python method consults a helper that exists nowhere in the
repository, the helper enters as an explicit input or is modelled from the
spec; each such point is recorded in the doc comment of the definition.
-/

namespace Chess

/-- Embedding of enum PieceColor (pieces/piece.py lines 11-19). -/
inductive PieceColor where
  | white
  | black
deriving DecidableEq, Repr

/-- Embedding of the PieceColor.opposite property (pieces/piece.py lines 16-19). -/
def PieceColor.opposite : PieceColor → PieceColor
  | .white => .black
  | .black => .white

/-- Embedding of enum GameState (game_rule.py lines 15-21). -/
inductive GameState where
  | active
  | check
  | checkmate
  | stalemate
  | draw
deriving DecidableEq, Repr

/-- Move data as GameRule.make_move consumes it: coordinates of the start and
end squares, an identifier for the moving piece, whether the moving piece is a
Pawn (the isinstance test on game_rule.py line 85) and whether the move is a
capture. -/
structure MoveRec where
  startRow : Int
  startCol : Int
  endRow : Int
  endCol : Int
  pieceId : Nat
  isPawnMove : Bool
  isCapture : Bool
deriving DecidableEq, Repr

namespace Board

/-- State of a Board object: the fields initialised in Board.__init__
(board.py lines 19-42) that Board.make_move and Board.undo_move can touch.
The placement stands for the piece references held by the Square matrix. -/
structure State where
  placement : List (Int × Int × Nat)
  moveHistory : List MoveRec
  positionHistory : List (Option String)
  enPassantSquare : Option (Int × Int)
  halfmoveClock : Nat
  fullmoveNumber : Nat
deriving DecidableEq, Repr

/-- Embedding of Python set.add on Board._position_history (a Set on board.py
line 32): the element is appended only when it is not already present. -/
def setAdd (s : List (Option String)) (k : Option String) : List (Option String) :=
  if k ∈ s then s else s ++ [k]

/-- Embedding of Board._get_position_key (board.py lines 287-289): the body is
a bare pass statement, so the method returns None. -/
def get_position_key (_b : State) : Option String := none

/-- Embedding of Board.make_move (board.py lines 153-175).  The helper
_update_game_state and the four special-move handlers it dispatches to
(lines 267-285) are pass stubs, so the placement is untouched; the move is
appended to the move history and the position key is added to the
position-history set.  The method has no return statement, so its Python
return value is None: the first component of the result models that value. -/
def make_move (b : State) (m : MoveRec) : Option Unit × State :=
  (none,
    { b with
      moveHistory := b.moveHistory ++ [m]
      positionHistory := setAdd b.positionHistory (get_position_key b) })

/-- Modelled from the spec: Board.undo_move calls self._restore_position
(board.py line 188) but that method is defined nowhere in the repository.
Spec section 4.3 says undo restores every field execute mutated; the stubbed
handlers mutate no placement, so the restoration leaves the state as given. -/
def restore_position (b : State) (_m : MoveRec) : State := b

/-- Embedding of Board.undo_move (board.py lines 177-189): None when the move
history is empty, else the popped move after restoring the position. -/
def undo_move (b : State) : Option MoveRec × State :=
  match b.moveHistory.getLast? with
  | none => (none, b)
  | some m =>
      let b1 := { b with moveHistory := b.moveHistory.dropLast }
      (some m, restore_position b1 m)

/-- The message of the ValueError raised by Board.get_square (board.py line
96), by Square.__init__ (square.py line 17) and by the Move dataclass
validation (pieces/piece.py line 63, where Python prints the offending tuple
in the same format). -/
def invalid_position_msg (row col : Int) : String :=
  "Invalid position: (" ++ toString row ++ ", " ++ toString col ++ ")"

end Board

/-- A board square as an identified cell: the (row, col) pair. -/
structure Square where
  row : Int
  col : Int
deriving DecidableEq, Repr

/-- Embedding of Square._is_valid_position (square.py lines 28-31). -/
def Square.is_valid_position (row col : Int) : Bool :=
  decide (0 ≤ row) && decide (row < 8) && decide (0 ≤ col) && decide (col < 8)

/-- Embedding of Square.__init__ (square.py lines 14-26): raises ValueError
(the error constructor) when the coordinates are outside the board. -/
def Square.init (row col : Int) : Except String Square :=
  if Square.is_valid_position row col then Except.ok ⟨row, col⟩
  else Except.error (Board.invalid_position_msg row col)

/-- Embedding of Board.get_square (board.py lines 81-97): raises ValueError
for coordinates outside the board, else returns the square at them. -/
def Board.get_square (row col : Int) : Except String Square :=
  if Square.is_valid_position row col then Except.ok ⟨row, col⟩
  else Except.error (Board.invalid_position_msg row col)

/-- Embedding of the frozen Move dataclass validation __post_init__
(pieces/piece.py lines 58-63): the start then the end position is checked,
raising ValueError at the first one outside the board. -/
def PieceMove.post_init (s e : Int × Int) : Except String ((Int × Int) × (Int × Int)) :=
  if Square.is_valid_position s.1 s.2 then
    if Square.is_valid_position e.1 e.2 then Except.ok (s, e)
    else Except.error (Board.invalid_position_msg e.1 e.2)
  else Except.error (Board.invalid_position_msg s.1 s.2)

namespace GameRule

/-- Embedding of the fifty-move counter update in GameRule.make_move
(game_rule.py lines 83-88): reset to zero when the moving piece is a Pawn or
the move is a capture, else one more per half-move. -/
def update_fifty_move_counter (isPawnMove isCapture : Bool) (counter : Nat) : Nat :=
  if isPawnMove || isCapture then 0 else counter + 1

/-- Embedding of GameRule._is_draw (game_rule.py lines 215-219): fifty-move
counter at least 50, or insufficient material, or threefold repetition.  The
last two conditions are boolean inputs here: _is_insufficient_material is
source lines 221-237, while _is_threefold_repetition is called on line 219
but defined nowhere in the repository. -/
def is_draw (fiftyMoveCounter : Nat) (insufficientMaterial threefoldRepetition : Bool) : Bool :=
  decide (50 ≤ fiftyMoveCounter) || insufficientMaterial || threefoldRepetition

/-- Embedding of GameRule._update_game_state (game_rule.py lines 64-75) with
_is_checkmate, _is_stalemate (lines 207-213) inlined: each is a conjunction
of _is_check with _has_no_legal_moves.  The queries _is_check and
_has_no_legal_moves enter as boolean inputs (_has_no_legal_moves is called
but defined nowhere in the repository). -/
def update_game_state (isCheck hasNoLegalMoves : Bool) (fiftyMoveCounter : Nat)
    (insufficientMaterial threefoldRepetition : Bool) : GameState :=
  if isCheck && hasNoLegalMoves then .checkmate
  else if !isCheck && hasNoLegalMoves then .stalemate
  else if is_draw fiftyMoveCounter insufficientMaterial threefoldRepetition then .draw
  else if isCheck then .check
  else .active

/-- Status precedence exactly as claim C3 words it: no legal moves gives
Checkmate when in check and Stalemate otherwise; else Draw when a draw
condition holds; else Check when in check; else Active. -/
def claimStatusOrder (isCheck hasNoLegalMoves drawCondition : Bool) : GameState :=
  if hasNoLegalMoves then (if isCheck then .checkmate else .stalemate)
  else if drawCondition then .draw
  else if isCheck then .check
  else .active

/-- Pawn-move and capture flags of one half-move, as the counter update in
GameRule.make_move reads them. -/
structure MoveFlags where
  isPawnMove : Bool
  isCapture : Bool
deriving DecidableEq, Repr

/-- The fifty-move counter after a game that plays the given half-moves from
the initial counter value 0 (GameRule.__init__, game_rule.py line 32),
applying the update of make_move at every half-move. -/
def counter_after (ms : List MoveFlags) : Nat :=
  ms.foldl (fun c m => update_fifty_move_counter m.isPawnMove m.isCapture c) 0

/-- A half-move that is neither a pawn move nor a capture. -/
def quiet (m : MoveFlags) : Bool := !(m.isPawnMove || m.isCapture)

/-- Spec-side count: the number of half-moves played since the last capture
or pawn move (the length of the maximal quiet suffix of the game). -/
def trailingQuietCount (ms : List MoveFlags) : Nat :=
  (ms.reverse.takeWhile quiet).length

/-- The fifty-move draw condition exactly as claim C4 words it: a draw when
50 full moves, that is 100 half-moves, pass without a capture or pawn move. -/
def claimFiftyMoveDraw (halfMovesSinceReset : Nat) : Bool :=
  decide (100 ≤ halfMovesSinceReset)

/-- State of a GameRule object: the fields initialised in GameRule.__init__
(game_rule.py lines 24-49) together with the owned Board. -/
structure RuleState where
  board : Board.State
  currentPlayer : PieceColor
  state : GameState
  lastMove : Option MoveRec
  fiftyMoveCounter : Nat
  moveCount : Nat
  moveHistory : List MoveRec
  positionHistory : List String
  enPassantTarget : Option (Int × Int)
  enPassantPawn : Option Nat
deriving DecidableEq, Repr

/-- Embedding of GameRule.update_en_passant (game_rule.py lines 162-174):
both en-passant fields are cleared, then set when a pawn just moved two
rows; the target is the square between start and end. -/
def update_en_passant (s : RuleState) (m : MoveRec) : RuleState :=
  let s0 := { s with enPassantTarget := none, enPassantPawn := none }
  if m.isPawnMove && (m.endRow - m.startRow).natAbs == 2 then
    { s0 with
      enPassantPawn := some m.pieceId
      enPassantTarget := some ((m.startRow + m.endRow) / 2, m.endCol) }
  else s0

/-- Results of the predicate calls GameRule.make_move and undo_move make.
is_valid_move (game_rule.py lines 124-148) cannot be computed from the
sources alone: it calls can_move_to (absent from the Pawn and King classes),
_causes_self_check and _is_castle_legal (both defined nowhere in the
repository), so its outcome enters as a boolean.  board_state_key stands for
the value of _get_board_state (called on line 91, defined nowhere in the
repository), and the last four booleans for the status queries made by
_update_game_state after the move. -/
structure Oracles where
  isValidMove : Bool
  boardStateKey : String
  isCheckAfter : Bool
  hasNoLegalMovesAfter : Bool
  insufficientMaterial : Bool
  threefoldRepetition : Bool
deriving DecidableEq, Repr

/-- Embedding of GameRule.make_move (game_rule.py lines 78-104): an invalid
move returns False at once; a valid move first bumps the move count and the
fifty-move counter, appends the board signature to the position history and
updates the en-passant state, then runs Board.make_move and only on a truthy
board result switches the player, records the move and recomputes the
status.  Board.make_move returns None, so the truthy branch never runs. -/
def make_move (o : Oracles) (s : RuleState) (m : MoveRec) : Bool × RuleState :=
  if !o.isValidMove then (false, s)
  else
    let s1 := { s with
      moveCount := s.moveCount + 1
      fiftyMoveCounter := update_fifty_move_counter m.isPawnMove m.isCapture s.fiftyMoveCounter }
    let s2 := { s1 with positionHistory := s1.positionHistory ++ [o.boardStateKey] }
    let s3 := update_en_passant s2 m
    match Board.make_move s3.board m with
    | (some _, b2) =>
        let s4 := { s3 with
          board := b2
          lastMove := some m
          moveHistory := s3.moveHistory ++ [m]
          currentPlayer := s3.currentPlayer.opposite }
        (true, { s4 with
          state := update_game_state o.isCheckAfter o.hasNoLegalMovesAfter
            s4.fiftyMoveCounter o.insufficientMaterial o.threefoldRepetition })
    | (none, b2) => (false, { s3 with board := b2 })

/-- Embedding of GameRule.undo_move (game_rule.py lines 106-121): None when
the move history is empty; else the last move and its position entry are
popped and, on a truthy Board.undo_move, the player is switched back, the
move count decremented, the last-move pointer reset and the status
recomputed.  Neither the fifty-move counter nor the en-passant fields are
touched. -/
def undo_move (o : Oracles) (s : RuleState) : Option MoveRec × RuleState :=
  match s.moveHistory.getLast? with
  | none => (none, s)
  | some lastMove =>
      let s1 := { s with
        moveHistory := s.moveHistory.dropLast
        positionHistory := s.positionHistory.dropLast }
      match Board.undo_move s1.board with
      | (some _, b2) =>
          let s2 := { s1 with
            board := b2
            currentPlayer := s1.currentPlayer.opposite
            moveCount := s1.moveCount - 1
            lastMove := s1.moveHistory.getLast? }
          (some lastMove, { s2 with
            state := update_game_state o.isCheckAfter o.hasNoLegalMovesAfter
              s2.fiftyMoveCounter o.insufficientMaterial o.threefoldRepetition })
      | (none, b2) => (none, { s1 with board := b2 })

end GameRule

/-- The Board state right after Board.__init__ (board.py lines 19-42). -/
def emptyBoardState : Board.State :=
  { placement := []
    moveHistory := []
    positionHistory := []
    enPassantSquare := none
    halfmoveClock := 0
    fullmoveNumber := 1 }

/-- The GameRule state right after GameRule.__init__ (game_rule.py lines
24-49) with a fresh board. -/
def initialRuleState : GameRule.RuleState :=
  { board := emptyBoardState
    currentPlayer := .white
    state := .active
    lastMove := none
    fiftyMoveCounter := 0
    moveCount := 0
    moveHistory := []
    positionHistory := []
    enPassantTarget := none
    enPassantPawn := none }

/-- A quiet knight-like move (b1 to c3): not a pawn move, not a capture. -/
def knightMove : MoveRec :=
  { startRow := 7, startCol := 1, endRow := 5, endCol := 2
    pieceId := 1, isPawnMove := false, isCapture := false }

/-- Oracle values under which is_valid_move accepts the move. -/
def acceptingOracle : GameRule.Oracles :=
  { isValidMove := true
    boardStateKey := "sig0"
    isCheckAfter := false
    hasNoLegalMovesAfter := false
    insufficientMaterial := false
    threefoldRepetition := false }

/-- Oracle values under which is_valid_move rejects the move. -/
def rejectingOracle : GameRule.Oracles :=
  { acceptingOracle with isValidMove := false }

namespace King

/-- Embedding of enum PieceType restricted to the kind tag (pieces/piece.py
lines 21-28). -/
inductive PieceKind where
  | pawn
  | knight
  | bishop
  | rook
  | queen
  | king
deriving DecidableEq, Repr

/-- What the castling code reads off a piece: its kind and its has_moved
flag (pieces/piece.py lines 111-114). -/
structure PieceInfo where
  kind : PieceKind
  hasMoved : Bool
deriving DecidableEq, Repr

/-- The board as the castling code observes it: the optional piece on each
square, and the King._is_square_safe verdict for each square (king.py lines
81-109: no opposing piece attacks the square). -/
structure BoardView where
  pieceAt : Int → Int → Option PieceInfo
  safe : Int → Int → Bool

/-- Modelled from the spec: Board.is_empty is called by
King._can_castle_kingside and _can_castle_queenside (king.py lines 158, 185
to 187) but defined nowhere in the repository; per the spec data model a
cell is empty when it holds no piece (as Square.is_empty, square.py lines
101-103, decides for a single square). -/
def board_is_empty (b : BoardView) (row col : Int) : Bool :=
  (b.pieceAt row col).isNone

/-- Embedding of the rook test shared by King._can_castle_kingside and
_can_castle_queenside (king.py lines 161-166 and 190-195): the corner square
holds a piece, it is a rook, and it has not moved. -/
def rook_ready_at (b : BoardView) (row col : Int) : Bool :=
  match b.pieceAt row col with
  | some p => p.kind == PieceKind.rook && !p.hasMoved
  | none => false

/-- The king fields the castling code reads: colour, the private _can_castle
flag and the has_moved flag (king.py lines 15-29). -/
structure KingState where
  color : PieceColor
  canCastleFlag : Bool
  hasMoved : Bool
deriving DecidableEq, Repr

/-- Embedding of the King.can_castle property (king.py lines 26-29). -/
def can_castle (k : KingState) : Bool := k.canCastleFlag && !k.hasMoved

/-- Embedding of King._can_castle_kingside (king.py lines 146-171): squares
(row,5) and (row,6) empty, an unmoved rook on (row,7), and the squares
(row,4), (row,5), (row,6) safe. -/
def can_castle_kingside (b : BoardView) (row : Int) : Bool :=
  (board_is_empty b row 5 && board_is_empty b row 6) &&
  rook_ready_at b row 7 &&
  (b.safe row 4 && b.safe row 5 && b.safe row 6)

/-- Embedding of King._can_castle_queenside (king.py lines 173-200): squares
(row,3), (row,2), (row,1) empty, an unmoved rook on (row,0), and the squares
(row,4), (row,3), (row,2) safe. -/
def can_castle_queenside (b : BoardView) (row : Int) : Bool :=
  (board_is_empty b row 3 && board_is_empty b row 2 && board_is_empty b row 1) &&
  rook_ready_at b row 0 &&
  (b.safe row 4 && b.safe row 3 && b.safe row 2)

/-- A generated castling move as King._get_castling_moves builds it. -/
structure CastleMove where
  startRow : Int
  startCol : Int
  endRow : Int
  endCol : Int
deriving DecidableEq, Repr

/-- The kingside castling move from (row,4) to (row,6). -/
def kingsideMove (row : Int) : CastleMove := ⟨row, 4, row, 6⟩

/-- The queenside castling move from (row,4) to (row,2). -/
def queensideMove (row : Int) : CastleMove := ⟨row, 4, row, 2⟩

/-- The back rank used by King._get_castling_moves (king.py line 126): 7 for
white, 0 for black. -/
def king_row (k : KingState) : Int :=
  if k.color = PieceColor.white then 7 else 0

/-- Embedding of King._get_castling_moves (king.py lines 111-144): nothing
when can_castle fails; else the kingside move when _can_castle_kingside
holds and the queenside move when _can_castle_queenside holds. -/
def get_castling_moves (k : KingState) (b : BoardView) : List CastleMove :=
  if !can_castle k then []
  else
    let row := king_row k
    (if can_castle_kingside b row then [kingsideMove row] else []) ++
    (if can_castle_queenside b row then [queensideMove row] else [])

end King

namespace MCTS

/-- A root child of the MCTS tree as MCTSStrategy.find_best_move reads it:
the move that led to it, its visit count, its accumulated wins (mcts.py
lines 18-25). -/
structure Child where
  move : Nat
  visits : Nat
  wins : Int
deriving DecidableEq, Repr

/-- Embedding of Python max over children keyed by visits (mcts.py line 88):
the running best is replaced only by a strictly greater key, so the first
child with the maximal visit count wins. -/
def maxByVisits (c : Child) (cs : List Child) : Child :=
  cs.foldl (fun best x => if best.visits < x.visits then x else best) c

/-- Embedding of the final selection in MCTSStrategy.find_best_move (mcts.py
lines 84-89): None when the root has no children, else the move of the child
with the most visits. -/
def find_best_move (children : List Child) : Option Nat :=
  match children with
  | [] => none
  | c :: cs => some (maxByVisits c cs).move

end MCTS

/-- Extended integers: the values the search code manipulates, where Python
float infinities initialise alpha, beta and the running maxima. -/
inductive XInt where
  | negInf
  | fin (val : Int)
  | posInf
deriving DecidableEq, Repr

/-- Comparison a less-or-equal b on extended integers. -/
def XInt.ble : XInt → XInt → Bool
  | .negInf, _ => true
  | _, .posInf => true
  | .posInf, .negInf => false
  | .posInf, .fin _ => false
  | .fin _, .negInf => false
  | .fin v, .fin w => decide (v ≤ w)

/-- Strict comparison a less-than b on extended integers. -/
def XInt.blt (a b : XInt) : Bool := !(XInt.ble b a)

/-- Negation on extended integers, as Python unary minus on scores. -/
def XInt.neg : XInt → XInt
  | .negInf => .posInf
  | .posInf => .negInf
  | .fin v => .fin (-v)

/-- Python max(a, b): b exactly when it is strictly greater, else a. -/
def xmax (a b : XInt) : XInt := if XInt.blt a b then b else a

mutual

/-- A game tree as the search observes the mutable game state: the static
evaluation of the node, the is_game_over flag, the is_check flag for the
side to move, and the subtrees reached by the sorted legal moves (the same
ordered list both searches would walk). -/
inductive GTree where
  | node (eval : Int) (isOver : Bool) (isCheck : Bool) (children : GForest)

/-- The ordered children of a GTree node. -/
inductive GForest where
  | nil
  | cons (c : GTree) (cs : GForest)

end

mutual

/-- Size of a game tree, for induction over the search recursion. -/
def GTree.size : GTree → Nat
  | .node _ _ _ cs => GForest.size cs + 1

/-- Size of a forest, for induction over the search recursion. -/
def GForest.size : GForest → Nat
  | .nil => 1
  | .cons c cs => GTree.size c + GForest.size cs + 1

end

mutual

/-- Embedding of NegamaxStrategy._negamax (negamax.py lines 82-126).  Time
is modelled by sched : Nat gives Bool, indexed by the count of wall-clock
readings taken so far; each reading advances the count, and a reading that
says the budget is exhausted makes the call return score 0 at once (line
96-97; the time_limit attribute read there is assigned nowhere in the
repository and is taken to be the find_best_move budget, per spec section
4.5).  At depth 0 or on a finished game the node evaluation is returned
(the call on line 101 names _evaluate_position_with_conditions, defined
nowhere in the repository; it stands for the position evaluation).  With no
legal moves the score is minus 100000 in check (CHECKMATE_SCORE, line 19)
and 0 otherwise.  Else the ordered children are searched by negamax_loop. -/
def negamax (sched : Nat → Bool) (t : GTree) (d : Nat) (α β : XInt) (k : Nat) :
    XInt × Nat :=
  if sched k then (XInt.fin 0, k + 1)
  else
    match t with
    | .node e isOver isChk cs =>
      if d = 0 || isOver then (XInt.fin e, k + 1)
      else
        match cs with
        | .nil => ((if isChk then XInt.fin (-100000) else XInt.fin 0), k + 1)
        | .cons c rest =>
            negamax_loop sched (GForest.cons c rest) (d - 1) α β XInt.negInf (k + 1)

/-- The move loop of NegamaxStrategy._negamax (negamax.py lines 111-126):
each child is searched with the negated, swapped window; the running maximum
and alpha are raised by the score; alpha at least beta stops the loop. -/
def negamax_loop (sched : Nat → Bool) (cs : GForest) (d : Nat) (α β maxScore : XInt)
    (k : Nat) : XInt × Nat :=
  match cs with
  | .nil => (maxScore, k)
  | .cons c rest =>
      let rk := negamax sched c d (XInt.neg β) (XInt.neg α) k
      let s := XInt.neg rk.1
      let maxScore2 := xmax maxScore s
      let α2 := xmax α s
      if XInt.ble β α2 then (maxScore2, rk.2)
      else negamax_loop sched rest d α2 β maxScore2 rk.2

end

/-- A schedule under which the budget never runs out. -/
def schedNever : Nat → Bool := fun _ => false

mutual

/-- Spec-side definition for claim C8: the unpruned full-width negamax over
the same ordered move list, identical to _negamax except that the time check
and the alpha-beta cutoff are gone. -/
def negamaxFull : GTree → Nat → XInt
  | .node e isOver isChk cs, d =>
    if d = 0 || isOver then XInt.fin e
    else
      match cs with
      | .nil => if isChk then XInt.fin (-100000) else XInt.fin 0
      | .cons c rest => fullLoop (GForest.cons c rest) (d - 1) XInt.negInf

/-- The move loop of the unpruned negamax: the plain maximum of the negated
child values, folded from the given running maximum. -/
def fullLoop : GForest → Nat → XInt → XInt
  | .nil, _, m => m
  | .cons c rest, d, m => fullLoop rest d (xmax m (XInt.neg (negamaxFull c d)))

end

mutual

/-- The pruned search with the time check specialised away: what negamax
computes under a schedule that never expires.  Used to relate the pruned and
the unpruned searches. -/
def negamaxAB : GTree → Nat → XInt → XInt → XInt
  | .node e isOver isChk cs, d, α, β =>
    if d = 0 || isOver then XInt.fin e
    else
      match cs with
      | .nil => if isChk then XInt.fin (-100000) else XInt.fin 0
      | .cons c rest => abLoop (GForest.cons c rest) (d - 1) α β XInt.negInf

/-- The move loop of the pruned search without the clock. -/
def abLoop : GForest → Nat → XInt → XInt → XInt → XInt
  | .nil, _, _, _, m => m
  | .cons c rest, d, α, β, m =>
      let s := XInt.neg (negamaxAB c d (XInt.neg β) (XInt.neg α))
      let m2 := xmax m s
      let α2 := xmax α s
      if XInt.ble β α2 then m2 else abLoop rest d α2 β m2

end

/-- A root move of the iterative-deepening search: the move identifier and
the game subtree after playing it. -/
structure RootMove where
  id : Nat
  tree : GTree

/-- Embedding of the inner move loop of NegamaxStrategy.find_best_move
(negamax.py lines 55-73): the clock is read before each move and a reading
that says the budget is gone breaks the loop; else the move is searched at
current depth minus one with the negated swapped window, the current best
is replaced on a strictly greater score, and alpha is raised. -/
def rootLoop (sched : Nat → Bool) (moves : List RootMove) (curDepth : Nat)
    (α β : XInt) (cur : Option Nat × XInt) (k : Nat) :
    (Option Nat × XInt) × XInt × Nat :=
  match moves with
  | [] => (cur, α, k)
  | m :: rest =>
      if sched k then (cur, α, k + 1)
      else
        let rk := negamax sched m.tree (curDepth - 1) (XInt.neg β) (XInt.neg α) (k + 1)
        let s := XInt.neg rk.1
        let cur2 := if XInt.blt cur.2 s then (some m.id, s) else cur
        let α2 := xmax α s
        rootLoop sched rest curDepth α2 β cur2 rk.2

/-- Embedding of the iterative-deepening loop of
NegamaxStrategy.find_best_move (negamax.py lines 47-78): for each depth,
after a clock reading that can break the loop, the move loop runs from a
fresh current best, and the overall best is replaced only by a strictly
greater current score.  Alpha, beta and the overall best carry over from
depth to depth; nothing discards the result of an interrupted depth. -/
def depthLoop (sched : Nat → Bool) (moves : List RootMove) (depths : List Nat)
    (α β : XInt) (best : Option Nat × XInt) (k : Nat) :
    (Option Nat × XInt) × Nat :=
  match depths with
  | [] => (best, k)
  | cd :: rest =>
      if sched k then (best, k + 1)
      else
        let r := rootLoop sched moves cd α β (none, XInt.negInf) (k + 1)
        let best2 := if XInt.blt best.2 r.1.2 then r.1 else best
        depthLoop sched moves rest r.2.1 β best2 r.2.2

/-- Embedding of NegamaxStrategy.find_best_move (negamax.py lines 24-80):
best move None with score minus infinity, alpha minus infinity, beta plus
infinity, the sorted legal moves fixed once, then the depth loop over
depths 1 up to the requested depth; the recorded best move is returned. -/
def find_best_move (sched : Nat → Bool) (moves : List RootMove) (depth : Nat) :
    Option Nat :=
  ((depthLoop sched moves (List.range' 1 depth) XInt.negInf XInt.posInf
      (none, XInt.negInf) 0).1).1

/-- Spec-side trace of the move loop: the list of (move, score) evaluations
the budget allowed at one depth, with the same alpha threading and the same
clock consumption as rootLoop. -/
def rootTrace (sched : Nat → Bool) (moves : List RootMove) (curDepth : Nat)
    (α β : XInt) (k : Nat) : List (Nat × XInt) × XInt × Nat :=
  match moves with
  | [] => ([], α, k)
  | m :: rest =>
      if sched k then ([], α, k + 1)
      else
        let rk := negamax sched m.tree (curDepth - 1) (XInt.neg β) (XInt.neg α) (k + 1)
        let s := XInt.neg rk.1
        let r := rootTrace sched rest curDepth (xmax α s) β rk.2
        ((m.id, s) :: r.1, r.2)

/-- Spec-side trace of the whole call: the concatenation of the per-depth
traces the budget allowed. -/
def searchTraceLoop (sched : Nat → Bool) (moves : List RootMove)
    (depths : List Nat) (α β : XInt) (k : Nat) : List (Nat × XInt) × Nat :=
  match depths with
  | [] => ([], k)
  | cd :: rest =>
      if sched k then ([], k + 1)
      else
        let r := rootTrace sched moves cd α β (k + 1)
        let r2 := searchTraceLoop sched moves rest r.2.1 β r.2.2
        (r.1 ++ r2.1, r2.2)

/-- All root-move evaluations one find_best_move call completes, in order. -/
def searchTrace (sched : Nat → Bool) (moves : List RootMove) (depth : Nat) :
    List (Nat × XInt) :=
  (searchTraceLoop sched moves (List.range' 1 depth) XInt.negInf XInt.posInf 0).1

/-- One step of first-strict-maximum selection: the candidate replaces the
running best only on a strictly greater score. -/
def stepBest (best : Option Nat × XInt) (p : Nat × XInt) : Option Nat × XInt :=
  if XInt.blt best.2 p.2 then (some p.1, p.2) else best

/-- The first evaluation of maximal score in a trace: the earliest entry
whose score no other entry strictly beats nor earlier entry matches. -/
def bestOfTrace (tr : List (Nat × XInt)) : Option Nat × XInt :=
  tr.foldl stepBest (none, XInt.negInf)

/-- Merge of two running bests: the right one wins only on a strictly
greater score. -/
def mergeBest (a b : Option Nat × XInt) : Option Nat × XInt :=
  if XInt.blt a.2 b.2 then b else a

/-- The two-move position of the C7 counterexample: move 0 leads to a tree
with evaluation 5 whose single reply has evaluation 9; move 1 leads to a
leaf-like tree with evaluation minus 7. -/
def movesC7 : List RootMove :=
  [ ⟨0, .node 5 false false (.cons (.node 9 false false .nil) .nil)⟩,
    ⟨1, .node (-7) false false .nil⟩ ]

/-- A clock under which the tenth wall-clock reading (index 9) is the first
to report the budget gone: the run completes depth 1 and is interrupted
inside depth 2 after searching only the first move. -/
def schedC7 : Nat → Bool := fun k => decide (9 ≤ k)

/-- C3: after every applied move the status recomputation of
GameRule._update_game_state follows exactly the claimed precedence: with no
legal moves the status is Checkmate when in check and Stalemate otherwise,
else Draw when a draw condition holds, else Check when in check, else
Active.  The equality holds for every value of the primitive queries. -/
theorem C3_status_precedence (isCheck hasNoLegalMoves : Bool) (fifty : Nat)
    (insuff three : Bool) :
    GameRule.update_game_state isCheck hasNoLegalMoves fifty insuff three =
      GameRule.claimStatusOrder isCheck hasNoLegalMoves
        (GameRule.is_draw fifty insuff three) := by
  cases isCheck <;> cases hasNoLegalMoves <;>
    cases h : GameRule.is_draw fifty insuff three <;>
      simp [GameRule.update_game_state, GameRule.claimStatusOrder, h]

theorem counter_after_concat (ms : List GameRule.MoveFlags) (m : GameRule.MoveFlags) :
    GameRule.counter_after (ms ++ [m]) =
      GameRule.update_fifty_move_counter m.isPawnMove m.isCapture
        (GameRule.counter_after ms) := by
  simp [GameRule.counter_after, List.foldl_append]

theorem counter_after_eq_trailing (ms : List GameRule.MoveFlags) :
    GameRule.counter_after ms = GameRule.trailingQuietCount ms := by
  induction ms using List.reverseRecOn with
  | nil => rfl
  | append_singleton ms m ih =>
      rw [counter_after_concat]
      unfold GameRule.trailingQuietCount
      rw [List.reverse_append]
      simp only [List.reverse_singleton, List.singleton_append, List.takeWhile_cons]
      cases hq : GameRule.quiet m
      · have hq2 : (m.isPawnMove || m.isCapture) = true := by
          revert hq; unfold GameRule.quiet
          cases m.isPawnMove <;> cases m.isCapture <;> simp
        simp [GameRule.update_fifty_move_counter, hq2]
      · have hq2 : (m.isPawnMove || m.isCapture) = false := by
          revert hq; unfold GameRule.quiet
          cases m.isPawnMove <;> cases m.isCapture <;> simp
        simp only [hq2]
        simp [GameRule.update_fifty_move_counter, hq2, ih,
          GameRule.trailingQuietCount]

/-- C4 as amended: the fifty-move counter counts the half-moves played since
the last capture or pawn move (the counter after any game equals the length
of its maximal quiet suffix), and the engine reports the fifty-move draw
exactly when that count reaches 50 half-moves, that is 25 full moves. -/
theorem C4_fifty_move_half_move_convention (ms : List GameRule.MoveFlags) :
    GameRule.counter_after ms = GameRule.trailingQuietCount ms
    ∧ GameRule.is_draw (GameRule.counter_after ms) false false =
        decide (50 ≤ GameRule.trailingQuietCount ms) := by
  refine ⟨counter_after_eq_trailing ms, ?_⟩
  rw [counter_after_eq_trailing ms]
  simp [GameRule.is_draw]

/-- C4 counterexample: after 50 quiet half-moves from a reset the engine
already reports the fifty-move draw, while the claim (a draw only at 100
half-moves without capture or pawn move) says there is none. -/
theorem C4_counterexample_draw_at_50_half_moves :
    GameRule.is_draw
        (GameRule.counter_after (List.replicate 50 ⟨false, false⟩)) false false = true
    ∧ GameRule.claimFiftyMoveDraw
        (GameRule.trailingQuietCount (List.replicate 50 ⟨false, false⟩)) = false := by
  exact ⟨by decide, by decide⟩

/-- C1: evaluation of GameRule.make_move at a move its validation accepts.
The call returns False, yet the move count has been bumped, the position
history extended and the board touched, because Board.make_move returns
None (it has no return statement) and the success branch that would return
True, switch the player and recompute the status never runs.  The last
conjunct records the one half of the claim that does hold: a rejected move
returns False and leaves the state unchanged. -/
theorem C1_make_move_never_returns_true :
    (GameRule.make_move acceptingOracle initialRuleState knightMove).1 = false
    ∧ (GameRule.make_move acceptingOracle initialRuleState knightMove).2.moveCount = 1
    ∧ (GameRule.make_move acceptingOracle initialRuleState
        knightMove).2.positionHistory = ["sig0"]
    ∧ (GameRule.make_move acceptingOracle initialRuleState knightMove).2
        ≠ initialRuleState
    ∧ GameRule.make_move rejectingOracle initialRuleState knightMove =
        (false, initialRuleState) := by
  exact ⟨by decide, by decide, by decide, by decide, by decide⟩

/-- C2: evaluation of the make-then-undo round trip at a quiet valid move.
The undo is a no-op returning None: GameRule.make_move never reaches its
success branch, so its own move history stays empty and undo_move returns
at once, leaving the bumped fifty-move counter and the extended position
history in place.  The round trip does not restore the pre-move state. -/
theorem C2_round_trip_not_restored :
    (GameRule.undo_move acceptingOracle
        (GameRule.make_move acceptingOracle initialRuleState knightMove).2).1 = none
    ∧ (GameRule.undo_move acceptingOracle
        (GameRule.make_move acceptingOracle initialRuleState
          knightMove).2).2.fiftyMoveCounter = 1
    ∧ initialRuleState.fiftyMoveCounter = 0
    ∧ (GameRule.undo_move acceptingOracle
        (GameRule.make_move acceptingOracle initialRuleState knightMove).2).2
        ≠ initialRuleState := by
  exact ⟨by decide, by decide, by decide, by decide⟩

/-- C6 as amended: a request for a square outside the board is rejected by
raising ValueError (the error result), in Board.get_square, in
Square.__init__ and in the Move dataclass validation alike; no square is
returned and no boolean or empty failure indicator is produced. -/
theorem C6_out_of_bounds_raises (row col : Int)
    (h : ¬ (0 ≤ row ∧ row < 8 ∧ 0 ≤ col ∧ col < 8)) :
    Board.get_square row col = Except.error (Board.invalid_position_msg row col)
    ∧ Square.init row col = Except.error (Board.invalid_position_msg row col)
    ∧ PieceMove.post_init (row, col) (0, 0) =
        Except.error (Board.invalid_position_msg row col) := by
  have hv : Square.is_valid_position row col = false := by
    cases hb : Square.is_valid_position row col
    · rfl
    · exact absurd (by simpa [Square.is_valid_position, Bool.and_eq_true,
        decide_eq_true_eq, and_assoc] using hb) h
  exact ⟨by simp [Board.get_square, hv], by simp [Square.init, hv],
    by simp [PieceMove.post_init, hv]⟩

/-- Witness for C6 at the concrete request (8, 0). -/
theorem C6_out_of_bounds_raises_witness :
    Board.get_square 8 0 = Except.error (Board.invalid_position_msg 8 0)
    ∧ Square.init 8 0 = Except.error (Board.invalid_position_msg 8 0)
    ∧ PieceMove.post_init (8, 0) (0, 0) =
        Except.error (Board.invalid_position_msg 8 0) :=
  C6_out_of_bounds_raises 8 0 (by decide)

/-- C6 counterexample: the request (8, 0) makes Board.get_square raise
ValueError with the documented message — an exception, not a boolean or
empty failure result as the claim asserts. -/
theorem C6_counterexample_get_square_raises :
    Board.get_square 8 0 = Except.error "Invalid position: (8, 0)"
    ∧ (Board.get_square 8 0).isOk = false := by
  exact ⟨rfl, rfl⟩

theorem setAdd_nodup (s : List (Option String)) (k : Option String)
    (hs : s.Nodup) : (Board.setAdd s k).Nodup := by
  unfold Board.setAdd
  split
  · exact hs
  · simp_all [List.nodup_append]

theorem fold_make_move_nodup (ms : List MoveRec) (b : Board.State)
    (hb : b.positionHistory.Nodup) :
    ((ms.foldl (fun b m => (Board.make_move b m).2) b).positionHistory).Nodup := by
  induction ms generalizing b with
  | nil => exact hb
  | cons m ms ih =>
      simp only [List.foldl_cons]
      exact ih _ (setAdd_nodup _ _ hb)

theorem count_option_beq_agree (l : List (Option String)) (k : Option String) :
    @List.count _ Option.instBEq k l = @List.count _ instBEqOfDecidableEq k l := by
  induction l with
  | nil => rfl
  | cons a l ih => simp [List.count_cons, ih, beq_iff_eq]

/-- C10: after any sequence of Board.make_move calls from a fresh board the
position history has set semantics: every signature occurs at most once, so
its occurrence count never reaches 3. -/
theorem C10_position_history_is_a_set (ms : List MoveRec) (key : Option String) :
    ((ms.foldl (fun b m => (Board.make_move b m).2)
        emptyBoardState).positionHistory).count key ≤ 1
    ∧ ((ms.foldl (fun b m => (Board.make_move b m).2)
        emptyBoardState).positionHistory).count key < 3 := by
  have hnd := fold_make_move_nodup ms emptyBoardState (by simp [emptyBoardState])
  have h1 := List.nodup_iff_count_le_one.mp hnd key
  rw [count_option_beq_agree]
  exact ⟨h1, by omega⟩

theorem maxByVisits_spec (c : MCTS.Child) (cs : List MCTS.Child) :
    (MCTS.maxByVisits c cs = c ∨ MCTS.maxByVisits c cs ∈ cs)
    ∧ c.visits ≤ (MCTS.maxByVisits c cs).visits
    ∧ ∀ x ∈ cs, x.visits ≤ (MCTS.maxByVisits c cs).visits := by
  induction cs generalizing c with
  | nil => simp [MCTS.maxByVisits]
  | cons x cs ih =>
      have step : MCTS.maxByVisits c (x :: cs) =
          MCTS.maxByVisits (if c.visits < x.visits then x else c) cs := by
        simp [MCTS.maxByVisits]
      obtain ⟨hmem, hge, hall⟩ := ih (if c.visits < x.visits then x else c)
      rw [step]
      refine ⟨?_, ?_, ?_⟩
      · rcases hmem with hm | hm
        · by_cases h : c.visits < x.visits
          · right; rw [hm]; simp [h]
          · left; rw [hm]; simp [h]
        · right; exact List.mem_cons_of_mem _ hm
      · refine le_trans ?_ hge
        by_cases h : c.visits < x.visits <;> simp [h] <;> omega
      · intro y hy
        rcases List.mem_cons.mp hy with hm | hm
        · subst hm
          refine le_trans ?_ hge
          by_cases h : c.visits < y.visits <;> simp [h] <;> omega
        · exact hall y hm

/-- C9: whenever the root has at least one child, MCTS find_best_move
returns the move of a child whose visit count is maximal among all root
children — the robust-child rule, independent of win rates. -/
theorem C9_mcts_returns_most_visited (children : List MCTS.Child)
    (h : children ≠ []) :
    ∃ c, c ∈ children ∧ MCTS.find_best_move children = some c.move ∧
      ∀ x ∈ children, x.visits ≤ c.visits := by
  match children with
  | [] => exact absurd rfl h
  | c :: cs =>
      obtain ⟨hmem, hge, hall⟩ := maxByVisits_spec c cs
      refine ⟨MCTS.maxByVisits c cs, ?_, rfl, ?_⟩
      · rcases hmem with hm | hm
        · rw [hm]; exact List.mem_cons_self c cs
        · exact List.mem_cons_of_mem _ hm
      · intro x hx
        rcases List.mem_cons.mp hx with hm | hm
        · subst hm; exact hge
        · exact hall x hm

theorem castling_kingside_mem (k : King.KingState) (b : King.BoardView) :
    King.kingsideMove (King.king_row k) ∈ King.get_castling_moves k b ↔
      (King.can_castle k = true
        ∧ King.can_castle_kingside b (King.king_row k) = true) := by
  unfold King.get_castling_moves
  cases hc : King.can_castle k
  · simp
  · cases h1 : King.can_castle_kingside b (King.king_row k) <;>
      cases h2 : King.can_castle_queenside b (King.king_row k) <;>
        simp [King.kingsideMove, King.queensideMove, h1, h2]

theorem castling_queenside_mem (k : King.KingState) (b : King.BoardView) :
    King.queensideMove (King.king_row k) ∈ King.get_castling_moves k b ↔
      (King.can_castle k = true
        ∧ King.can_castle_queenside b (King.king_row k) = true) := by
  unfold King.get_castling_moves
  cases hc : King.can_castle k
  · simp
  · cases h1 : King.can_castle_kingside b (King.king_row k) <;>
      cases h2 : King.can_castle_queenside b (King.king_row k) <;>
        simp [King.kingsideMove, King.queensideMove, h1, h2]

theorem can_castle_iff (k : King.KingState) :
    King.can_castle k = true ↔ (k.canCastleFlag = true ∧ k.hasMoved = false) := by
  unfold King.can_castle
  cases k.canCastleFlag <;> cases k.hasMoved <;> simp

/-- C5: a castling move is generated by King._get_castling_moves exactly
when every condition of the claim holds for its wing — the king has never
moved (and keeps its castling flag), every square strictly between king and
rook is empty, the rook stands unmoved on its corner, and the start, transit
and landing squares of the king are all safe from the opponent.  Failure of
any condition suppresses exactly that wing, and nothing but the two wing
moves is ever generated. -/
theorem C5_castling_move_generation (k : King.KingState) (b : King.BoardView) :
    (King.kingsideMove (King.king_row k) ∈ King.get_castling_moves k b ↔
      (k.canCastleFlag = true ∧ k.hasMoved = false
        ∧ King.board_is_empty b (King.king_row k) 5 = true
        ∧ King.board_is_empty b (King.king_row k) 6 = true
        ∧ King.rook_ready_at b (King.king_row k) 7 = true
        ∧ b.safe (King.king_row k) 4 = true
        ∧ b.safe (King.king_row k) 5 = true
        ∧ b.safe (King.king_row k) 6 = true))
    ∧ (King.queensideMove (King.king_row k) ∈ King.get_castling_moves k b ↔
      (k.canCastleFlag = true ∧ k.hasMoved = false
        ∧ King.board_is_empty b (King.king_row k) 3 = true
        ∧ King.board_is_empty b (King.king_row k) 2 = true
        ∧ King.board_is_empty b (King.king_row k) 1 = true
        ∧ King.rook_ready_at b (King.king_row k) 0 = true
        ∧ b.safe (King.king_row k) 4 = true
        ∧ b.safe (King.king_row k) 3 = true
        ∧ b.safe (King.king_row k) 2 = true))
    ∧ (∀ mv ∈ King.get_castling_moves k b,
        mv = King.kingsideMove (King.king_row k)
          ∨ mv = King.queensideMove (King.king_row k)) := by
  refine ⟨?_, ?_, ?_⟩
  · rw [castling_kingside_mem, can_castle_iff]
    unfold King.can_castle_kingside
    simp only [Bool.and_eq_true]
    tauto
  · rw [castling_queenside_mem, can_castle_iff]
    unfold King.can_castle_queenside
    simp only [Bool.and_eq_true]
    tauto
  · intro mv hmv
    unfold King.get_castling_moves at hmv
    cases hc : King.can_castle k <;> rw [hc] at hmv
    · simp at hmv
    · cases h1 : King.can_castle_kingside b (King.king_row k) <;>
        cases h2 : King.can_castle_queenside b (King.king_row k) <;>
          simp [h1, h2] at hmv <;> tauto

/-- Witness for C9: three children where the second has the most visits (5)
but the lowest win rate (0 of 5); the returned move, 20, is its move. -/
theorem C9_mcts_returns_most_visited_witness :
    ∃ c, c ∈ [MCTS.Child.mk 10 1 1, MCTS.Child.mk 20 5 0, MCTS.Child.mk 30 3 3]
      ∧ MCTS.find_best_move
          [MCTS.Child.mk 10 1 1, MCTS.Child.mk 20 5 0, MCTS.Child.mk 30 3 3] =
          some c.move
      ∧ ∀ x ∈ [MCTS.Child.mk 10 1 1, MCTS.Child.mk 20 5 0, MCTS.Child.mk 30 3 3],
          x.visits ≤ c.visits :=
  C9_mcts_returns_most_visited
    [MCTS.Child.mk 10 1 1, MCTS.Child.mk 20 5 0, MCTS.Child.mk 30 3 3] (by decide)

theorem XInt.ble_refl (a : XInt) : XInt.ble a a = true := by
  cases a <;> simp [XInt.ble]

theorem XInt.ble_trans {a b c : XInt} (h1 : XInt.ble a b = true)
    (h2 : XInt.ble b c = true) : XInt.ble a c = true := by
  cases a <;> cases b <;> cases c <;> simp_all [XInt.ble] <;> omega

theorem XInt.ble_antisym {a b : XInt} (h1 : XInt.ble a b = true)
    (h2 : XInt.ble b a = true) : a = b := by
  cases a <;> cases b <;> simp_all [XInt.ble] <;> omega

theorem XInt.ble_of_blt {a b : XInt} (h : XInt.blt a b = true) :
    XInt.ble a b = true := by
  cases a <;> cases b <;> simp_all [XInt.blt, XInt.ble] <;> omega

theorem XInt.ble_of_not_blt {a b : XInt} (h : XInt.blt a b = false) :
    XInt.ble b a = true := by
  simpa [XInt.blt] using h

theorem XInt.not_ble_of_blt {a b : XInt} (h : XInt.blt a b = true) :
    XInt.ble b a = false := by
  simpa [XInt.blt] using h

theorem XInt.blt_irrefl (a : XInt) : XInt.blt a a = false := by
  simp [XInt.blt, XInt.ble_refl]

theorem XInt.blt_of_ble_of_blt {a b c : XInt} (h1 : XInt.ble a b = true)
    (h2 : XInt.blt b c = true) : XInt.blt a c = true := by
  cases a <;> cases b <;> cases c <;> simp_all [XInt.blt, XInt.ble] <;> omega

theorem XInt.blt_of_blt_of_ble {a b c : XInt} (h1 : XInt.blt a b = true)
    (h2 : XInt.ble b c = true) : XInt.blt a c = true := by
  cases a <;> cases b <;> cases c <;> simp_all [XInt.blt, XInt.ble] <;> omega

theorem XInt.blt_trans {a b c : XInt} (h1 : XInt.blt a b = true)
    (h2 : XInt.blt b c = true) : XInt.blt a c = true :=
  XInt.blt_of_blt_of_ble h1 (XInt.ble_of_blt h2)

theorem XInt.neg_neg (a : XInt) : a.neg.neg = a := by
  cases a <;> simp [XInt.neg]

theorem XInt.ble_neg_neg (a b : XInt) : XInt.ble a.neg b.neg = XInt.ble b a := by
  cases a <;> cases b <;> simp [XInt.neg, XInt.ble] <;> omega

theorem XInt.blt_neg_neg (a b : XInt) : XInt.blt a.neg b.neg = XInt.blt b a := by
  simp [XInt.blt, XInt.ble_neg_neg]

theorem XInt.ble_negInf (a : XInt) : XInt.ble .negInf a = true := by
  cases a <;> rfl

theorem XInt.ble_posInf (a : XInt) : XInt.ble a .posInf = true := by
  cases a <;> rfl

theorem XInt.blt_negInf (a : XInt) : XInt.blt a .negInf = false := by
  simp [XInt.blt, XInt.ble_negInf]

theorem XInt.blt_posInf_left (a : XInt) : XInt.blt .posInf a = false := by
  simp [XInt.blt, XInt.ble_posInf]

theorem XInt.blt_false_of_not {a b : XInt} (h : ¬ XInt.blt a b = true) :
    XInt.blt a b = false := by
  cases hb : XInt.blt a b
  · rfl
  · exact absurd hb h

theorem xmax_cases (a b : XInt) : xmax a b = a ∨ xmax a b = b := by
  unfold xmax; split <;> simp

theorem ble_xmax_left (a b : XInt) : XInt.ble a (xmax a b) = true := by
  unfold xmax; split
  · exact XInt.ble_of_blt ‹_›
  · exact XInt.ble_refl a

theorem ble_xmax_right (a b : XInt) : XInt.ble b (xmax a b) = true := by
  unfold xmax; split
  · exact XInt.ble_refl b
  · exact XInt.ble_of_not_blt (XInt.blt_false_of_not ‹_›)

theorem xmax_le {a b c : XInt} (h1 : XInt.ble a c = true)
    (h2 : XInt.ble b c = true) : XInt.ble (xmax a b) c = true := by
  unfold xmax; split <;> assumption

theorem xmax_of_ble {a b : XInt} (h : XInt.ble a b = true) : xmax a b = b := by
  unfold xmax; split
  · rfl
  · exact XInt.ble_antisym h (XInt.ble_of_not_blt (XInt.blt_false_of_not ‹_›))

theorem xmax_of_ge {a b : XInt} (h : XInt.ble b a = true) : xmax a b = a := by
  unfold xmax; split
  · exact (XInt.ble_antisym h (XInt.ble_of_blt ‹_›))
  · rfl

theorem xmax_mono {a b c d : XInt} (h1 : XInt.ble a c = true)
    (h2 : XInt.ble b d = true) : XInt.ble (xmax a b) (xmax c d) = true :=
  xmax_le (XInt.ble_trans h1 (ble_xmax_left c d))
    (XInt.ble_trans h2 (ble_xmax_right c d))

theorem xmax_negInf_right (a : XInt) : xmax a .negInf = a := by
  simp [xmax, XInt.blt_negInf]

theorem xmax_negInf_left (a : XInt) : xmax .negInf a = a := by
  cases a <;> simp [xmax, XInt.blt, XInt.ble]

theorem xmax_assoc (a b c : XInt) : xmax (xmax a b) c = xmax a (xmax b c) := by
  apply XInt.ble_antisym
  · refine xmax_le (xmax_le ?_ ?_) ?_
    · exact ble_xmax_left a (xmax b c)
    · exact XInt.ble_trans (ble_xmax_left b c) (ble_xmax_right a (xmax b c))
    · exact XInt.ble_trans (ble_xmax_right b c) (ble_xmax_right a (xmax b c))
  · refine xmax_le ?_ (xmax_le ?_ ?_)
    · exact XInt.ble_trans (ble_xmax_left a b) (ble_xmax_left (xmax a b) c)
    · exact XInt.ble_trans (ble_xmax_right a b) (ble_xmax_left (xmax a b) c)
    · exact ble_xmax_right (xmax a b) c

theorem mergeBest_assoc (a b c : Option Nat × XInt) :
    mergeBest (mergeBest a b) c = mergeBest a (mergeBest b c) := by
  unfold mergeBest
  cases hab : XInt.blt a.2 b.2 <;> cases hbc : XInt.blt b.2 c.2 <;>
    simp only [hab, hbc, Bool.false_eq_true, Bool.true_eq_false, if_true,
      if_false]
  · have hca : XInt.ble c.2 a.2 = true :=
      XInt.ble_trans (XInt.ble_of_not_blt hbc) (XInt.ble_of_not_blt hab)
    simp [XInt.blt, hca]
  · have hac := XInt.blt_trans hab hbc
    simp [hac]

theorem stepBest_eq_merge (b : Option Nat × XInt) (p : Nat × XInt) :
    stepBest b p = mergeBest b (some p.1, p.2) := rfl

theorem mergeBest_init (b : Option Nat × XInt) :
    mergeBest b (none, XInt.negInf) = b := by
  simp [mergeBest, XInt.blt_negInf]

theorem foldl_stepBest_merge (tr : List (Nat × XInt)) (b c : Option Nat × XInt) :
    List.foldl stepBest (mergeBest b c) tr =
      mergeBest b (List.foldl stepBest c tr) := by
  induction tr generalizing c with
  | nil => rfl
  | cons p tr ih =>
      simp only [List.foldl_cons]
      rw [stepBest_eq_merge, mergeBest_assoc, ← stepBest_eq_merge]
      exact ih (stepBest c p)

theorem rootLoop_trace (sched : Nat → Bool) (moves : List RootMove) (cd : Nat)
    (α β : XInt) (cur : Option Nat × XInt) (k : Nat) :
    rootLoop sched moves cd α β cur k =
      ((rootTrace sched moves cd α β k).1.foldl stepBest cur,
        (rootTrace sched moves cd α β k).2.1,
        (rootTrace sched moves cd α β k).2.2) := by
  induction moves generalizing α cur k with
  | nil => rfl
  | cons m rest ih =>
      cases hs : sched k
      · simp only [rootLoop, rootTrace, hs, Bool.false_eq_true, if_false,
          List.foldl_cons]
        rw [ih]
        rfl
      · simp only [rootLoop, rootTrace, hs, if_true, List.foldl_nil]

theorem depthLoop_trace (sched : Nat → Bool) (moves : List RootMove)
    (depths : List Nat) (α β : XInt) (best : Option Nat × XInt) (k : Nat) :
    depthLoop sched moves depths α β best k =
      ((searchTraceLoop sched moves depths α β k).1.foldl stepBest best,
        (searchTraceLoop sched moves depths α β k).2) := by
  induction depths generalizing α best k with
  | nil => rfl
  | cons cd rest ih =>
      cases hs : sched k
      · simp only [depthLoop, searchTraceLoop, hs, Bool.false_eq_true, if_false]
        rw [rootLoop_trace, List.foldl_append, ih]
        have hb : (if XInt.blt best.2
              ((rootTrace sched moves cd α β (k + 1)).1.foldl stepBest
                (none, XInt.negInf)).2 = true
            then (rootTrace sched moves cd α β (k + 1)).1.foldl stepBest
              (none, XInt.negInf)
            else best) =
            (rootTrace sched moves cd α β (k + 1)).1.foldl stepBest best := by
          rw [show (if XInt.blt best.2
              ((rootTrace sched moves cd α β (k + 1)).1.foldl stepBest
                (none, XInt.negInf)).2 = true
            then (rootTrace sched moves cd α β (k + 1)).1.foldl stepBest
              (none, XInt.negInf)
            else best) = mergeBest best
              ((rootTrace sched moves cd α β (k + 1)).1.foldl stepBest
                (none, XInt.negInf)) from rfl]
          rw [← foldl_stepBest_merge, mergeBest_init]
        rw [hb]
      · simp only [depthLoop, searchTraceLoop, hs, if_true, List.foldl_nil]

/-- C7 as amended: find_best_move returns the move of the first evaluation
achieving the maximal score among all root-move evaluations the budget
allowed, across all iterative-deepening iterations — a depth interrupted by
budget exhaustion keeps its partially-searched evaluations in that pool
rather than having them discarded, and alpha and the best score carry over
between depths instead of being reset. -/
theorem C7_returned_move_is_trace_argmax (sched : Nat → Bool)
    (moves : List RootMove) (depth : Nat) :
    find_best_move sched moves depth =
      (bestOfTrace (searchTrace sched moves depth)).1 := by
  unfold find_best_move searchTrace bestOfTrace
  rw [depthLoop_trace]

/-- C7 counterexample: under the clock schedC7 the call with depth 2
completes depth 1 (whose best move is 1, as the uninterrupted depth-1 run
shows) and is interrupted inside depth 2 after evaluating only the first of
the two moves (three completed evaluations instead of four); it returns
move 0 from that partially-searched depth, not depth 1 its best move 1. -/
theorem C7_counterexample_partial_depth_result_returned :
    find_best_move schedC7 movesC7 2 = some 0
    ∧ find_best_move schedNever movesC7 1 = some 1
    ∧ searchTrace schedC7 movesC7 2 =
        [(0, XInt.fin (-5)), (1, XInt.fin 7), (0, XInt.fin 9)]
    ∧ searchTrace schedNever movesC7 2 =
        [(0, XInt.fin (-5)), (1, XInt.fin 7), (0, XInt.fin 9), (1, XInt.fin 0)] := by
  exact ⟨rfl, rfl, rfl, rfl⟩

theorem XInt.ble_neg_right (a b : XInt) : XInt.ble a b.neg = XInt.ble b a.neg := by
  cases a <;> cases b <;> simp [XInt.neg, XInt.ble] <;> omega

theorem XInt.ble_neg_left (a b : XInt) : XInt.ble a.neg b = XInt.ble b.neg a := by
  cases a <;> cases b <;> simp [XInt.neg, XInt.ble] <;> omega

theorem XInt.blt_neg_right (a b : XInt) : XInt.blt a b.neg = XInt.blt b a.neg := by
  cases a <;> cases b <;> simp [XInt.neg, XInt.blt, XInt.ble] <;> omega

theorem XInt.blt_neg_left (a b : XInt) : XInt.blt a.neg b = XInt.blt b.neg a := by
  cases a <;> cases b <;> simp [XInt.neg, XInt.blt, XInt.ble] <;> omega

theorem GTree.size_pos_tree (t : GTree) : 1 ≤ GTree.size t := by
  match t with
  | .node e o c cs => rw [show GTree.size (.node e o c cs) = GForest.size cs + 1 from rfl]; omega

theorem GForest.size_pos_forest (cs : GForest) : 1 ≤ GForest.size cs := by
  match cs with
  | .nil => exact le_refl 1
  | .cons c rest =>
      rw [show GForest.size (.cons c rest) = GTree.size c + GForest.size rest + 1 from rfl]
      omega

theorem xmax_fin_fin (v w : Int) : ∃ u, xmax (XInt.fin v) (XInt.fin w) = XInt.fin u := by
  unfold xmax; split
  · exact ⟨w, rfl⟩
  · exact ⟨v, rfl⟩

theorem abLoop_ge_base : ∀ (cs : GForest) (d : Nat) (α β m : XInt),
    XInt.ble m (abLoop cs d α β m) = true
  | .nil, _, _, _, m => by simp [abLoop, XInt.ble_refl]
  | .cons c rest, d, α, β, m => by
      simp only [abLoop]
      split
      · exact ble_xmax_left m _
      · exact XInt.ble_trans (ble_xmax_left m _) (abLoop_ge_base rest d _ β _)

theorem fullLoop_decomp : ∀ (cs : GForest) (d : Nat) (a b : XInt),
    fullLoop cs d (xmax a b) = xmax a (fullLoop cs d b)
  | .nil, _, _, _ => by simp [fullLoop]
  | .cons c rest, d, a, b => by
      simp only [fullLoop]
      rw [xmax_assoc]
      exact fullLoop_decomp rest d a (xmax b (negamaxFull c d).neg)

theorem fullLoop_base (cs : GForest) (d : Nat) (b : XInt) :
    fullLoop cs d b = xmax b (fullLoop cs d XInt.negInf) := by
  have h := fullLoop_decomp cs d b XInt.negInf
  rwa [xmax_negInf_right] at h

theorem fullLoop_ge_base (cs : GForest) (d : Nat) (b : XInt) :
    XInt.ble b (fullLoop cs d b) = true := by
  rw [fullLoop_base]; exact ble_xmax_left b _

theorem fullLoop_mono {a b : XInt} (cs : GForest) (d : Nat)
    (h : XInt.ble a b = true) :
    XInt.ble (fullLoop cs d a) (fullLoop cs d b) = true := by
  rw [fullLoop_base cs d a, fullLoop_base cs d b]
  exact xmax_mono h (XInt.ble_refl _)

theorem negamax_node_nil (sched : Nat → Bool) (e : Int) (isOver isChk : Bool)
    (d : Nat) (α β : XInt) (k : Nat) :
    negamax sched (.node e isOver isChk .nil) d α β k =
      if sched k then (XInt.fin 0, k + 1)
      else if (decide (d = 0) || isOver) = true then (XInt.fin e, k + 1)
      else ((if isChk then XInt.fin (-100000) else XInt.fin 0), k + 1) := rfl

theorem negamax_node_cons (sched : Nat → Bool) (e : Int) (isOver isChk : Bool)
    (c : GTree) (rest : GForest) (d : Nat) (α β : XInt) (k : Nat) :
    negamax sched (.node e isOver isChk (.cons c rest)) d α β k =
      if sched k then (XInt.fin 0, k + 1)
      else if (decide (d = 0) || isOver) = true then (XInt.fin e, k + 1)
      else negamax_loop sched (.cons c rest) (d - 1) α β XInt.negInf (k + 1) := rfl

theorem negamaxAB_node_nil (e : Int) (isOver isChk : Bool) (d : Nat)
    (α β : XInt) :
    negamaxAB (.node e isOver isChk .nil) d α β =
      if (decide (d = 0) || isOver) = true then XInt.fin e
      else (if isChk then XInt.fin (-100000) else XInt.fin 0) := rfl

theorem negamaxAB_node_cons (e : Int) (isOver isChk : Bool) (c : GTree)
    (rest : GForest) (d : Nat) (α β : XInt) :
    negamaxAB (.node e isOver isChk (.cons c rest)) d α β =
      if (decide (d = 0) || isOver) = true then XInt.fin e
      else abLoop (.cons c rest) (d - 1) α β XInt.negInf := rfl

theorem negamaxFull_node_nil (e : Int) (isOver isChk : Bool) (d : Nat) :
    negamaxFull (.node e isOver isChk .nil) d =
      if (decide (d = 0) || isOver) = true then XInt.fin e
      else (if isChk then XInt.fin (-100000) else XInt.fin 0) := rfl

theorem negamaxFull_node_cons (e : Int) (isOver isChk : Bool) (c : GTree)
    (rest : GForest) (d : Nat) :
    negamaxFull (.node e isOver isChk (.cons c rest)) d =
      if (decide (d = 0) || isOver) = true then XInt.fin e
      else fullLoop (.cons c rest) (d - 1) XInt.negInf := rfl

theorem schedNever_false (k : Nat) : schedNever k = false := rfl

theorem negamax_never_all (N : Nat) :
    (∀ t d α β k, GTree.size t ≤ N →
        (negamax schedNever t d α β k).1 = negamaxAB t d α β)
    ∧ (∀ cs d α β m k, GForest.size cs ≤ N →
        (negamax_loop schedNever cs d α β m k).1 = abLoop cs d α β m) := by
  induction N with
  | zero =>
      constructor
      · intro t d α β k h; have := GTree.size_pos_tree t; omega
      · intro cs d α β m k h; have := GForest.size_pos_forest cs; omega
  | succ N ih =>
      constructor
      · intro t d α β k hsz
        match t with
        | .node e isOver isChk cs =>
            have hcs : GForest.size cs ≤ N := by
              have h1 : GTree.size (.node e isOver isChk cs) = GForest.size cs + 1 := rfl
              omega
            match cs, hcs with
            | .nil, _ =>
                rw [negamax_node_nil, negamaxAB_node_nil,
                  if_neg (by rw [schedNever_false]; exact Bool.false_ne_true)]
                by_cases hD : (decide (d = 0) || isOver) = true
                · rw [if_pos hD]; try rw [if_pos hD]
                · rw [if_neg hD]; try rw [if_neg hD]
            | .cons c rest, hcs =>
                rw [negamax_node_cons, negamaxAB_node_cons,
                  if_neg (by rw [schedNever_false]; exact Bool.false_ne_true)]
                by_cases hD : (decide (d = 0) || isOver) = true
                · rw [if_pos hD]; try rw [if_pos hD]
                · rw [if_neg hD]; try rw [if_neg hD]
                  exact ih.2 _ _ _ _ _ _ hcs
      · intro cs d α β m k hsz
        match cs with
        | .nil => rfl
        | .cons c rest =>
            have heq : GForest.size (.cons c rest) =
                GTree.size c + GForest.size rest + 1 := rfl
            have hc : GTree.size c ≤ N := by
              have := GForest.size_pos_forest rest; omega
            have hrest : GForest.size rest ≤ N := by
              have := GTree.size_pos_tree c; omega
            simp only [negamax_loop, abLoop]
            rw [ih.1 c d (XInt.neg β) (XInt.neg α) k hc]
            split
            · rfl
            · exact ih.2 rest d _ β _ _ hrest

theorem negamax_never_eq (t : GTree) (d : Nat) (α β : XInt) (k : Nat) :
    (negamax schedNever t d α β k).1 = negamaxAB t d α β :=
  (negamax_never_all (GTree.size t)).1 t d α β k (le_refl _)

theorem negamaxFull_fin_all (N : Nat) :
    (∀ t d, GTree.size t ≤ N → ∃ v, negamaxFull t d = XInt.fin v)
    ∧ (∀ cs d v0, GForest.size cs ≤ N →
        ∃ w, fullLoop cs d (XInt.fin v0) = XInt.fin w)
    ∧ (∀ c rest d, GForest.size (GForest.cons c rest) ≤ N →
        ∃ w, fullLoop (GForest.cons c rest) d XInt.negInf = XInt.fin w) := by
  induction N with
  | zero =>
      refine ⟨?_, ?_, ?_⟩
      · intro t d h; have := GTree.size_pos_tree t; omega
      · intro cs d v0 h; have := GForest.size_pos_forest cs; omega
      · intro c rest d h; have := GForest.size_pos_forest (GForest.cons c rest); omega
  | succ N ih =>
      obtain ⟨ih1, ih2, ih3⟩ := ih
      refine ⟨?_, ?_, ?_⟩
      · intro t d hsz
        match t with
        | .node e isOver isChk cs =>
            have hcs : GForest.size cs ≤ N := by
              have h1 : GTree.size (.node e isOver isChk cs) = GForest.size cs + 1 := rfl
              omega
            match cs, hcs with
            | .nil, _ =>
                rw [negamaxFull_node_nil]
                by_cases hD : (decide (d = 0) || isOver) = true
                · rw [if_pos hD]; exact ⟨e, rfl⟩
                · rw [if_neg hD]
                  cases isChk
                  · exact ⟨0, rfl⟩
                  · exact ⟨-100000, rfl⟩
            | .cons c rest, hcs =>
                rw [negamaxFull_node_cons]
                by_cases hD : (decide (d = 0) || isOver) = true
                · rw [if_pos hD]; exact ⟨e, rfl⟩
                · rw [if_neg hD]
                  exact ih3 c rest (d - 1) hcs
      · intro cs d v0 hsz
        match cs with
        | .nil => exact ⟨v0, rfl⟩
        | .cons c rest =>
            have heq : GForest.size (.cons c rest) =
                GTree.size c + GForest.size rest + 1 := rfl
            have hc : GTree.size c ≤ N := by
              have := GForest.size_pos_forest rest; omega
            have hrest : GForest.size rest ≤ N := by
              have := GTree.size_pos_tree c; omega
            obtain ⟨vc, hvc⟩ := ih1 c d hc
            simp only [fullLoop, hvc]
            rw [show (XInt.fin vc).neg = XInt.fin (-vc) from rfl]
            obtain ⟨u, hu⟩ := xmax_fin_fin v0 (-vc)
            rw [hu]
            exact ih2 rest d u hrest
      · intro c rest d hsz
        have heq : GForest.size (.cons c rest) =
            GTree.size c + GForest.size rest + 1 := rfl
        have hc : GTree.size c ≤ N := by
          have := GForest.size_pos_forest rest; omega
        have hrest : GForest.size rest ≤ N := by
          have := GTree.size_pos_tree c; omega
        obtain ⟨vc, hvc⟩ := ih1 c d hc
        simp only [fullLoop, hvc]
        rw [show (XInt.fin vc).neg = XInt.fin (-vc) from rfl, xmax_negInf_left]
        exact ih2 rest d (-vc) hrest

theorem negamaxFull_fin (t : GTree) (d : Nat) :
    ∃ v, negamaxFull t d = XInt.fin v :=
  (negamaxFull_fin_all (GTree.size t)).1 t d (le_refl _)

theorem child_facts {rc vc β α : XInt}
    (h1 : XInt.ble rc β.neg = true → XInt.ble vc rc = true)
    (h2 : XInt.ble α.neg rc = true → XInt.ble rc vc = true)
    (h3 : XInt.blt β.neg rc = true → XInt.blt rc α.neg = true → rc = vc) :
    (XInt.ble β rc.neg = true → XInt.ble rc.neg vc.neg = true)
    ∧ (XInt.ble rc.neg α = true → XInt.ble vc.neg rc.neg = true)
    ∧ (XInt.blt rc.neg β = true → XInt.blt α rc.neg = true → rc.neg = vc.neg) := by
  refine ⟨?_, ?_, ?_⟩
  · intro h
    rw [XInt.ble_neg_neg]
    exact h1 (by rw [show XInt.ble rc β.neg = XInt.ble β rc.neg from XInt.ble_neg_right rc β]; exact h)
  · intro h
    rw [XInt.ble_neg_neg]
    exact h2 (by rw [show XInt.ble α.neg rc = XInt.ble rc.neg α from XInt.ble_neg_left α rc]; exact h)
  · intro hb ha
    rw [h3 (by rw [show XInt.blt β.neg rc = XInt.blt rc.neg β from XInt.blt_neg_left β rc]; exact hb)
        (by rw [show XInt.blt rc α.neg = XInt.blt α rc.neg from XInt.blt_neg_right rc α]; exact ha)]

theorem ab_bounds_all (N : Nat) :
    (∀ t d α β, GTree.size t ≤ N → XInt.blt α β = true →
      (XInt.ble (negamaxAB t d α β) α = true →
          XInt.ble (negamaxFull t d) (negamaxAB t d α β) = true)
      ∧ (XInt.ble β (negamaxAB t d α β) = true →
          XInt.ble (negamaxAB t d α β) (negamaxFull t d) = true)
      ∧ (XInt.blt α (negamaxAB t d α β) = true →
          XInt.blt (negamaxAB t d α β) β = true →
          negamaxAB t d α β = negamaxFull t d))
    ∧ (∀ cs d α β m, GForest.size cs ≤ N → XInt.blt α β = true →
        XInt.ble m α = true →
      (XInt.ble (abLoop cs d α β m) α = true →
          XInt.ble (fullLoop cs d m) (abLoop cs d α β m) = true)
      ∧ (XInt.ble β (abLoop cs d α β m) = true →
          XInt.ble (abLoop cs d α β m) (fullLoop cs d m) = true)
      ∧ (XInt.blt α (abLoop cs d α β m) = true →
          XInt.blt (abLoop cs d α β m) β = true →
          abLoop cs d α β m = fullLoop cs d m)) := by
  induction N with
  | zero =>
      constructor
      · intro t d α β h; have := GTree.size_pos_tree t; omega
      · intro cs d α β m h; have := GForest.size_pos_forest cs; omega
  | succ N ih =>
      constructor
      · intro t d α β hsz hαβ
        match t with
        | .node e isOver isChk cs =>
            have hcs : GForest.size cs ≤ N := by
              have h1 : GTree.size (.node e isOver isChk cs) = GForest.size cs + 1 := rfl
              omega
            match cs, hcs with
            | .nil, _ =>
                rw [negamaxAB_node_nil, negamaxFull_node_nil]
                by_cases hD : (decide (d = 0) || isOver) = true
                · rw [if_pos hD]; try rw [if_pos hD]
                  exact ⟨fun _ => XInt.ble_refl _, fun _ => XInt.ble_refl _,
                    fun _ _ => rfl⟩
                · rw [if_neg hD]; try rw [if_neg hD]
                  exact ⟨fun _ => XInt.ble_refl _, fun _ => XInt.ble_refl _,
                    fun _ _ => rfl⟩
            | .cons c rest, hcs =>
                rw [negamaxAB_node_cons, negamaxFull_node_cons]
                by_cases hD : (decide (d = 0) || isOver) = true
                · rw [if_pos hD]; try rw [if_pos hD]
                  exact ⟨fun _ => XInt.ble_refl _, fun _ => XInt.ble_refl _,
                    fun _ _ => rfl⟩
                · rw [if_neg hD]; try rw [if_neg hD]
                  exact ih.2 (GForest.cons c rest) (d - 1) α β XInt.negInf hcs
                    hαβ (XInt.ble_negInf α)
      · intro cs d α β m hsz hαβ hmα
        match cs with
        | .nil =>
            exact ⟨fun _ => XInt.ble_refl _, fun _ => XInt.ble_refl _,
              fun _ _ => rfl⟩
        | .cons c rest =>
            have heq : GForest.size (.cons c rest) =
                GTree.size c + GForest.size rest + 1 := rfl
            have hc : GTree.size c ≤ N := by
              have := GForest.size_pos_forest rest; omega
            have hrest : GForest.size rest ≤ N := by
              have := GTree.size_pos_tree c; omega
            obtain ⟨hc1, hc2, hc3⟩ :=
              ih.1 c d (XInt.neg β) (XInt.neg α) hc
                (by rw [XInt.blt_neg_neg]; exact hαβ)
            obtain ⟨s1, s2, s3⟩ := child_facts hc1 hc2 hc3
            simp only [abLoop, fullLoop]
            set s := (negamaxAB c d β.neg α.neg).neg with hsdef
            set u := (negamaxFull c d).neg with hudef
            cases hbr : XInt.ble β (xmax α s) <;>
              simp only [hbr, Bool.false_eq_true, if_false, if_true]
            · -- no break: the loop continues on rest
              have hα2β : XInt.blt (xmax α s) β = true := by
                simp [XInt.blt, hbr]
              have hm2α2 : XInt.ble (xmax m s) (xmax α s) = true :=
                xmax_mono hmα (XInt.ble_refl s)
              obtain ⟨r1, r2, r3⟩ :=
                ih.2 rest d (xmax α s) β (xmax m s) hrest hα2β hm2α2
              have habr : XInt.ble (xmax m s)
                  (abLoop rest d (xmax α s) β (xmax m s)) = true :=
                abLoop_ge_base rest d (xmax α s) β (xmax m s)
              cases hsα : XInt.ble s α
              · -- s strictly above alpha: the child value is exact
                have hαs : XInt.blt α s = true := by simp [XInt.blt, hsα]
                have hsβ : XInt.blt s β = true :=
                  XInt.blt_of_ble_of_blt (ble_xmax_right α s) hα2β
                have hsu : s = u := s3 hsβ hαs
                have hα2 : xmax α s = s := xmax_of_ble (XInt.ble_of_blt hαs)
                rw [hα2] at r1 r2 r3 habr ⊢
                rw [← hsu]
                refine ⟨?_, ?_, ?_⟩
                · intro h
                  have hsr : XInt.ble s (abLoop rest d s β (xmax m s)) = true :=
                    XInt.ble_trans (ble_xmax_right m s) habr
                  have hcontra := XInt.ble_trans hsr h
                  rw [hsα] at hcontra
                  exact Bool.noConfusion hcontra
                · intro h
                  exact r2 h
                · intro h1 h2
                  cases hsr : XInt.blt s (abLoop rest d s β (xmax m s))
                  · have hrs : XInt.ble (abLoop rest d s β (xmax m s)) s = true :=
                      XInt.ble_of_not_blt hsr
                    have hw2r := r1 hrs
                    have hrw2 : XInt.ble (abLoop rest d s β (xmax m s))
                        (fullLoop rest d (xmax m s)) = true :=
                      XInt.ble_trans hrs (XInt.ble_trans (ble_xmax_right m s)
                        (fullLoop_ge_base rest d (xmax m s)))
                    exact XInt.ble_antisym hrw2 hw2r
                  · exact r3 hsr h2
              · -- s at most alpha: only an upper bound on the child value
                have hus : XInt.ble u s = true := s2 hsα
                have hα2 : xmax α s = α := xmax_of_ge hsα
                rw [hα2] at r1 r2 r3 habr ⊢
                refine ⟨?_, ?_, ?_⟩
                · intro h
                  have hww : XInt.ble (fullLoop rest d (xmax m u))
                      (fullLoop rest d (xmax m s)) = true :=
                    fullLoop_mono rest d (xmax_mono (XInt.ble_refl m) hus)
                  exact XInt.ble_trans hww (r1 h)
                · intro h
                  have hrw2 := r2 h
                  have hm2α : XInt.ble (xmax m s) α = true := xmax_le hmα hsα
                  have hαr : XInt.blt α (abLoop rest d α β (xmax m s)) = true :=
                    XInt.blt_of_blt_of_ble hαβ h
                  have hm2r : XInt.blt (xmax m s)
                      (abLoop rest d α β (xmax m s)) = true :=
                    XInt.blt_of_ble_of_blt hm2α hαr
                  rw [fullLoop_base rest d (xmax m s)] at hrw2
                  rcases xmax_cases (xmax m s) (fullLoop rest d XInt.negInf)
                    with hx | hx <;> rw [hx] at hrw2
                  · rw [XInt.not_ble_of_blt hm2r] at hrw2
                    exact Bool.noConfusion hrw2
                  · rw [fullLoop_base rest d (xmax m u)]
                    exact XInt.ble_trans hrw2 (ble_xmax_right _ _)
                · intro h1 h2
                  have hr3 := r3 h1 h2
                  have hm2α : XInt.ble (xmax m s) α = true := xmax_le hmα hsα
                  have hm2r : XInt.blt (xmax m s)
                      (abLoop rest d α β (xmax m s)) = true :=
                    XInt.blt_of_ble_of_blt hm2α h1
                  rw [fullLoop_base rest d (xmax m s)] at hr3
                  rcases xmax_cases (xmax m s) (fullLoop rest d XInt.negInf)
                    with hx | hx <;> rw [hx] at hr3
                  · rw [hr3, XInt.blt_irrefl] at hm2r
                    exact Bool.noConfusion hm2r
                  · rw [fullLoop_base rest d (xmax m u)]
                    have hmuα : XInt.ble (xmax m u) α = true :=
                      xmax_le hmα (XInt.ble_trans hus hsα)
                    have hmuR : XInt.blt (xmax m u)
                        (fullLoop rest d XInt.negInf) = true := by
                      rw [← hr3]
                      exact XInt.blt_of_ble_of_blt hmuα h1
                    rw [xmax_of_ble (XInt.ble_of_blt hmuR)]
                    exact hr3
            · -- break: alpha reached beta after this child
              have hβs : XInt.ble β s = true := by
                rcases xmax_cases α s with hx | hx <;> rw [hx] at hbr
                · rw [XInt.not_ble_of_blt hαβ] at hbr
                  exact Bool.noConfusion hbr
                · exact hbr
              have hsu := s1 hβs
              have hms : XInt.ble m s = true :=
                XInt.ble_trans hmα (XInt.ble_trans (XInt.ble_of_blt hαβ) hβs)
              rw [xmax_of_ble hms]
              refine ⟨?_, ?_, ?_⟩
              · intro h
                have hcontra := XInt.ble_trans hβs h
                rw [XInt.not_ble_of_blt hαβ] at hcontra
                exact Bool.noConfusion hcontra
              · intro _
                exact XInt.ble_trans hsu (XInt.ble_trans (ble_xmax_right m u)
                  (fullLoop_ge_base rest d (xmax m u)))
              · intro _ h2
                rw [XInt.not_ble_of_blt h2] at hβs
                exact Bool.noConfusion hβs

/-- C8: at a fixed depth and position, with the full window and a budget
that never expires, the score computed by the pruned search _negamax equals
the score of the unpruned full-width negamax over the same ordered move
list: the alpha-beta cutoff never changes the result. -/
theorem C8_alpha_beta_equals_full_negamax (t : GTree) (d k : Nat) :
    (negamax schedNever t d XInt.negInf XInt.posInf k).1 = negamaxFull t d := by
  rw [negamax_never_eq]
  obtain ⟨v, hv⟩ := negamaxFull_fin t d
  obtain ⟨h1, h2, h3⟩ :=
    (ab_bounds_all (GTree.size t)).1 t d XInt.negInf XInt.posInf (le_refl _)
      (by rfl)
  cases hr : negamaxAB t d XInt.negInf XInt.posInf
  · have hb := h1 (by rw [hr]; rfl)
    rw [hr, hv] at hb
    exact Bool.noConfusion hb
  · exact hr ▸ h3 (by rw [hr]; rfl) (by rw [hr]; rfl)
  · have hb := h2 (by rw [hr]; rfl)
    rw [hr, hv] at hb
    exact Bool.noConfusion hb

end Chess
